import Mathlib

/-!
Verification of the call-graph query engine of this repository.

The development shallowly embeds the two query servers and the DOT-label
parser:

* `src/mcp_server/mcp-call-graph.py` — `CSVCallGraphParser` (the methods/calls
  tables loaded from CSV, short-name index, `get_callers`, `get_callees`,
  `get_function_details`, `search_functions`, `get_stats`), the lazily
  initialized module-level parser (`_ensure_parser_loaded`), and the five
  FastMCP tool wrappers.
* `src/parse_python/mcp_graph_server.py` — `GraphMCPServer.get_call_chain`'s
  inner `build_chain` recursion.
* `src/parse_python/dot_to_llm_index.py` — `clean_label` and
  `parse_node_label`.

Python dicts are modelled functionally: `self.methods` (id → row, last write
wins) becomes a lookup over the row list, `self.methods_by_name`
(defaultdict(list), insertion order) becomes a filter over the row list.
Python strings are Lean `String`s; `str.lower` is mapped characterwise with
`Char.toLower` and `sorted` is lexicographic comparison of code points, as in
CPython for the ASCII data these CSVs hold.
-/

/-- A row of `methods.csv` as `csv.DictReader` yields it: the columns
`_load_data` and `get_function_details` read. `signature`/`file` are optional
because the code accesses them with `row.get(..., "")`. -/
structure MethodRow where
  method_id : String
  full_name : String
  signature : Option String
  file : Option String
deriving DecidableEq

/-- A row of `calls.csv`: `caller_id` and `callee_id` are read with `row[...]`,
`callee_full_name` with `call.get(...)` (hence optional). -/
structure CallRow where
  caller_id : String
  callee_id : String
  callee_full_name : Option String
deriving DecidableEq

/-- The characters after the last occurrence of `sep`; the whole list when
`sep` does not occur.  Models Python's `s.split(sep)[-1]`. -/
def afterLast (sep : Char) (l : List Char) : List Char :=
  (l.reverse.takeWhile (fun c => c ≠ sep)).reverse

/-- `CSVCallGraphParser._extract_function_name`: for names like
`path/file.py:<module>.Class.method` take the part after the last `:`, and of
that the part after the last `.`; a name without `:` is returned whole. -/
def extract_function_name (full_name : String) : String :=
  if ':' ∈ full_name.data then
    let last := afterLast ':' full_name.data
    if '.' ∈ last then (afterLast '.' last).asString
    else last.asString
  else full_name

/-- The `self.methods` dict: `method_id → row`, built by iterating the rows of
`methods.csv` in order and assigning `self.methods[method_id] = row`, so a
repeated id keeps the last row. -/
def methods (rows : List MethodRow) (id : String) : Option MethodRow :=
  rows.reverse.find? (fun r => r.method_id == id)

/-- The `self.methods_by_name` defaultdict: every row appends its `method_id`
under the short name extracted from its `full_name`, in file order. -/
def methods_by_name (rows : List MethodRow) (name : String) : List String :=
  (rows.filter (fun r => extract_function_name r.full_name == name)).map
    (fun r => r.method_id)

/-- The keys of `self.methods_by_name`, i.e. the distinct short names, in first
appearance order. -/
def methods_by_name_keys (rows : List MethodRow) : List String :=
  (rows.map (fun r => extract_function_name r.full_name)).dedup

/-- Lexicographic comparison of character lists by code point — the order
Python's `sorted` uses on these strings. -/
def lexLe : List Char → List Char → Bool
  | [], _ => true
  | _ :: _, [] => false
  | a :: as, b :: bs =>
    if a.toNat = b.toNat then lexLe as bs else decide (a.toNat < b.toNat)

/-- `strLe a b` : `a ≤ b` in Python's string order. -/
def strLe (a b : String) : Bool := lexLe a.data b.data

instance strLeDecRel : DecidableRel (fun a b : String => strLe a b = true) :=
  fun _ _ => instDecidableEqBool _ _

instance strLeIsTotal : IsTotal String (fun a b : String => strLe a b = true) := ⟨by
  suffices h : ∀ a b : List Char, lexLe a b = true ∨ lexLe b a = true by
    intro a b; exact h a.data b.data
  intro a
  induction a with
  | nil => intro b; left; rfl
  | cons x xs ih =>
    intro b
    cases b with
    | nil => right; rfl
    | cons y ys =>
      simp only [lexLe]
      by_cases e : x.toNat = y.toNat
      · rw [if_pos e, if_pos e.symm]; exact ih ys
      · rw [if_neg e, if_neg (fun h => e h.symm)]
        rcases Nat.lt_or_ge x.toNat y.toNat with h | h
        · left; simpa using h
        · right; simp only [decide_eq_true_eq]; omega⟩

instance strLeIsTrans : IsTrans String (fun a b : String => strLe a b = true) := ⟨by
  suffices h : ∀ a b c : List Char,
      lexLe a b = true → lexLe b c = true → lexLe a c = true by
    intro a b c hab hbc; exact h a.data b.data c.data hab hbc
  intro a
  induction a with
  | nil => intro b c _ _; rfl
  | cons x xs ih =>
    intro b c hab hbc
    cases b with
    | nil => simp [lexLe] at hab
    | cons y ys =>
      cases c with
      | nil => simp [lexLe] at hbc
      | cons z zs =>
        simp only [lexLe] at hab hbc ⊢
        by_cases e1 : x.toNat = y.toNat
        · rw [if_pos e1] at hab
          by_cases e2 : y.toNat = z.toNat
          · rw [if_pos e2] at hbc
            rw [if_pos (e1.trans e2)]
            exact ih ys zs hab hbc
          · rw [if_neg e2] at hbc
            have hyz : y.toNat < z.toNat := by simpa using hbc
            rw [if_neg (by omega : ¬ x.toNat = z.toNat)]
            simp only [decide_eq_true_eq]; omega
        · rw [if_neg e1] at hab
          have hxy : x.toNat < y.toNat := by simpa using hab
          by_cases e2 : y.toNat = z.toNat
          · rw [if_neg (by omega : ¬ x.toNat = z.toNat)]
            simp only [decide_eq_true_eq]; omega
          · rw [if_neg e2] at hbc
            have hyz : y.toNat < z.toNat := by simpa using hbc
            rw [if_neg (by omega : ¬ x.toNat = z.toNat)]
            simp only [decide_eq_true_eq]; omega⟩

/-- Python's `sorted(...)` on a list of strings. -/
def sortStrings (l : List String) : List String :=
  List.insertionSort (fun a b : String => strLe a b = true) l

/-- Python's `sorted(set(...))`: deduplicate, then sort. -/
def sortDedup (l : List String) : List String := sortStrings l.dedup

/-- `CSVCallGraphParser.get_callers`: resolve the queried short name to its
candidate ids, scan all call rows whose `callee_id` is a candidate, and collect
the `full_name` of each `caller_id` that is present in the methods table, as a
sorted deduplicated list. -/
def get_callers (rows : List MethodRow) (calls : List CallRow)
    (function_name : String) : List String :=
  let method_ids := methods_by_name rows function_name
  if method_ids = [] then []
  else
    sortDedup (calls.filterMap (fun call =>
      if call.callee_id ∈ method_ids then
        (methods rows call.caller_id).map (fun m => m.full_name)
      else none))

/-- The `else` branch of `get_callees`: emit the raw `callee_full_name` when it
is present, non-empty (Python truthiness) and not the `<unknownFullName>`
placeholder. -/
def callee_fallback (call : CallRow) : Option String :=
  match call.callee_full_name with
  | some s => if s ≠ "" ∧ s ≠ "<unknownFullName>" then some s else none
  | none => none

/-- What one call row whose `caller_id` matched contributes to `get_callees`:
the resolved `full_name` when `callee_id != "-1"` and the id is in the methods
table, otherwise the raw-name fallback. -/
def callee_emit (rows : List MethodRow) (call : CallRow) : Option String :=
  if call.callee_id ≠ "-1" then
    match methods rows call.callee_id with
    | some m => some m.full_name
    | none => callee_fallback call
  else callee_fallback call

/-- `CSVCallGraphParser.get_callees`. -/
def get_callees (rows : List MethodRow) (calls : List CallRow)
    (function_name : String) : List String :=
  let method_ids := methods_by_name rows function_name
  if method_ids = [] then []
  else
    sortDedup (calls.filterMap (fun call =>
      if call.caller_id ∈ method_ids then callee_emit rows call else none))

/-- The record `get_function_details` returns. -/
structure FunctionDetails where
  method_id : String
  full_name : String
  signature : String
  file : String
deriving DecidableEq

/-- `CSVCallGraphParser.get_function_details`: first candidate id wins; the
methods-table lookup cannot miss for an id produced by `methods_by_name`. -/
def get_function_details (rows : List MethodRow) (function_name : String) :
    Option FunctionDetails :=
  match methods_by_name rows function_name with
  | [] => none
  | id :: _ =>
    (methods rows id).map (fun m =>
      ⟨id, m.full_name, m.signature.getD "", m.file.getD ""⟩)

/-- `pat` consumed from the front of `s`: `some rest` when `pat` is a prefix of
`s` and `rest` is what follows it. -/
def dropLit : List Char → List Char → Option (List Char)
  | [], s => some s
  | _ :: _, [] => none
  | p :: ps, c :: cs => if c = p then dropLit ps cs else none

/-- Python's `needle in hay` substring test. -/
def str_contains (needle : List Char) : List Char → Bool
  | [] => needle.isEmpty
  | c :: cs => (dropLit needle (c :: cs)).isSome || str_contains needle cs

/-- Python's `s.lower()`, characterwise (`Char.toLower` agrees with CPython on
the ASCII names these files hold). -/
def str_lower (s : String) : String := (s.data.map Char.toLower).asString

/-- `CSVCallGraphParser.search_functions`: the sorted short names whose
lowercase form contains the lowercased query as a substring. -/
def search_functions (rows : List MethodRow) (query : String) : List String :=
  let q := str_lower query
  sortStrings ((methods_by_name_keys rows).filter
    (fun name => str_contains q.data (str_lower name).data))

/-- The numeric fields of `CSVCallGraphParser.get_stats` (the remaining fields
echo file paths and existence flags of the already-loaded snapshot). -/
structure CallGraphStats where
  total_methods : Nat
  total_calls : Nat
  unique_functions : Nat
deriving DecidableEq

/-- `CSVCallGraphParser.get_stats`: `len(self.methods)` counts distinct ids,
`len(self.calls)` all call rows, `len(self.methods_by_name)` distinct short
names. -/
def get_stats (rows : List MethodRow) (calls : List CallRow) : CallGraphStats :=
  ⟨((rows.map (fun r => r.method_id)).dedup).length, calls.length,
    (methods_by_name_keys rows).length⟩

/-- The module-level lazy-loader state of `mcp-call-graph.py`: `parser` is the
global `_parser` (the loaded tables once construction succeeded), and
`load_attempts` counts how many times `CSVCallGraphParser(out_dir)` — i.e. one
`_load_data` normalization/index-build pass — has been started. -/
structure LoaderState where
  parser : Option (List MethodRow × List CallRow)
  load_attempts : Nat
deriving DecidableEq

/-- The state at process start: `_parser = None`, nothing attempted. -/
def initLoaderState : LoaderState := ⟨none, 0⟩

/-- `_ensure_parser_loaded`, one call: `files` is the input snapshot —
`some (methodRows, callRows)` when both `methods.csv` and `calls.csv` exist
(with their parsed rows), `none` when either is missing, in which case the
constructor raises `FileNotFoundError`.  The `asyncio.Lock` serializes
concurrent callers, so the per-process behaviour is this sequential function
iterated over the call sequence.  Note the source assigns `_parser` only on
constructor success: a raised exception leaves `_parser = None`. -/
def ensure_parser_loaded (files : Option (List MethodRow × List CallRow))
    (st : LoaderState) :
    Except String (List MethodRow × List CallRow) × LoaderState :=
  match st.parser with
  | some p => (Except.ok p, st)
  | none =>
    match files with
    | some d => (Except.ok d, ⟨some d, st.load_attempts + 1⟩)
    | none => (Except.error "Missing CSV files", ⟨none, st.load_attempts + 1⟩)

/-- The structured result every FastMCP tool returns: the JSON object's
`success` flag, its payload field, and its `error` field. -/
structure ToolResponse (α : Type) where
  success : Bool
  payload : α
  error : Option String
deriving DecidableEq

/-- Tool `get_callees`: the `try` body on a loaded parser, the `except` branch
as the structured failure.  `load` is the outcome of `_ensure_parser_loaded`
(an exception anywhere inside the `try` is this `Except.error`). -/
def tool_get_callees (load : Except String (List MethodRow × List CallRow))
    (function : String) : ToolResponse (List String) :=
  match load with
  | Except.ok (rows, calls) => ⟨true, get_callees rows calls function, none⟩
  | Except.error e => ⟨false, [], some e⟩

/-- Tool `get_callers`. -/
def tool_get_callers (load : Except String (List MethodRow × List CallRow))
    (function : String) : ToolResponse (List String) :=
  match load with
  | Except.ok (rows, calls) => ⟨true, get_callers rows calls function, none⟩
  | Except.error e => ⟨false, [], some e⟩

/-- Tool `search_functions`. -/
def tool_search_functions (load : Except String (List MethodRow × List CallRow))
    (query : String) : ToolResponse (List String) :=
  match load with
  | Except.ok (rows, _) => ⟨true, search_functions rows query, none⟩
  | Except.error e => ⟨false, [], some e⟩

/-- Tool `get_function_details`: the found/not-found split of the source, plus
the `except` branch. -/
def tool_get_function_details
    (load : Except String (List MethodRow × List CallRow)) (function : String) :
    ToolResponse (Option FunctionDetails) :=
  match load with
  | Except.ok (rows, _) =>
    match get_function_details rows function with
    | some d => ⟨true, some d, none⟩
    | none => ⟨false, none, some "Function not found"⟩
  | Except.error e => ⟨false, none, some e⟩

/-- Tool `get_call_graph_stats`. -/
def tool_get_call_graph_stats
    (load : Except String (List MethodRow × List CallRow)) :
    ToolResponse (Option CallGraphStats) :=
  match load with
  | Except.ok (rows, calls) => ⟨true, some (get_stats rows calls), none⟩
  | Except.error e => ⟨false, none, some e⟩

/-- One per-graph adjacency dict of `graph_data["call_graphs"]` in
`mcp_graph_server.py`: function identifier → list of callees.  JSON objects
have distinct keys; association-list `find?` models the dict lookup. -/
abbrev CallGraph := List (String × List String)

/-- `call_graph[start_func]` guarded by `if start_func in call_graph`. -/
def graphLookup (g : CallGraph) (f : String) : List String :=
  match g.find? (fun p => p.1 == f) with
  | some p => p.2
  | none => []

/-- The callees of `f` across all graphs, in the order the nested `for` loops
of `build_chain` visit them. -/
def allCallees (gs : List (String × CallGraph)) (f : String) : List String :=
  gs.flatMap (fun gp => graphLookup gp.2 f)

/-- `build_chain` of `GraphMCPServer.get_call_chain`.  The source recurses on
`depth` with the guard `depth >= max_depth`; here `fuel = max_depth - depth`,
so the guard is `fuel = 0` and each recursive call passes `fuel - 1`.  The
source mutates `visited` only by `visited.add(start_func)` before the loop and
hands each child `visited.copy()`, so within one invocation `visited` is the
constant `start :: visited` — exactly the immutable list passed on here. -/
def build_chain (gs : List (String × CallGraph)) :
    Nat → List String → String → List String
  | 0, _, _ => []
  | fuel + 1, visited, start =>
    if start ∈ visited then []
    else
      let visited' := start :: visited
      start :: (allCallees gs start).flatMap (fun callee =>
        if callee ∈ visited' then [] else build_chain gs fuel visited' callee)

/-- `get_call_chain`: `build_chain(function_name)` with `depth = 0` and a fresh
empty visited set. -/
def get_call_chain (gs : List (String × CallGraph)) (function_name : String)
    (max_depth : Nat) : List String :=
  build_chain gs max_depth [] function_name

/-- `fuel`-bounded scan for `re.sub`: replace each non-overlapping occurrence
of `p :: ps`, left to right, never rescanning the replacement.  Every step
consumes at least one character, so `fuel = s.length` (as `replaceAll` passes)
never runs out; the `0, s` row is unreachable then. -/
def replaceAllAux (p : Char) (ps rep : List Char) : Nat → List Char → List Char
  | _, [] => []
  | 0, s => s
  | fuel + 1, c :: cs =>
    if c = p then
      match dropLit ps cs with
      | some rest => rep ++ replaceAllAux p ps rep fuel rest
      | none => c :: replaceAllAux p ps rep fuel cs
    else
      c :: replaceAllAux p ps rep fuel cs

/-- `re.sub(pat, rep, s)` for the literal (metacharacter-free) patterns
`clean_label` uses; all call sites pass a non-empty pattern. -/
def replaceAll (pat rep s : List Char) : List Char :=
  match pat with
  | [] => s
  | p :: ps => replaceAllAux p ps rep s.length s

/-- `clean_label` of `dot_to_llm_index.py`: replace the `<BR/>` break marker by
a space first, then decode `&lt;`, `&gt;`, `&quot;` — in that order. -/
def clean_label (label : String) : String :=
  let l1 := replaceAll "<BR/>".data " ".data label.data
  let l2 := replaceAll "&lt;".data "<".data l1
  let l3 := replaceAll "&gt;".data ">".data l2
  (replaceAll "&quot;".data "\"".data l3).asString

/-- Python `\s` (the ASCII whitespace the re module matches in these labels). -/
def pySpace (c : Char) : Bool :=
  c = ' ' ∨ c = '\t' ∨ c = '\n' ∨ c = '\x0d' ∨ c = '\x0b' ∨ c = '\x0c'

/-- Python `\d`. -/
def pyDigit (c : Char) : Bool := '0' ≤ c ∧ c ≤ '9'

/-- `int(...)` on a non-empty digit run. -/
def digitsToNat (l : List Char) : Nat :=
  l.foldl (fun n c => 10 * n + (c.toNat - '0'.toNat)) 0

/-- `re.match(r'&lt;([^&]+)&gt;\.([^,]+),\s*(\d+)', label)`, returning the
operation type `group(1) ++ "." ++ group(2)` and the line number `group(3)`.
Each quantified class excludes the character that must follow it, so the
regex's backtracking is equivalent to this greedy scan. -/
def opMatch (label : List Char) : Option (String × Nat) := do
  let s1 ← dropLit "&lt;".data label
  let g1 := s1.takeWhile (fun c => c ≠ '&')
  guard (g1 ≠ [])
  let s2 ← dropLit "&gt;.".data (s1.drop g1.length)
  let g2 := s2.takeWhile (fun c => c ≠ ',')
  guard (g2 ≠ [])
  let s3 ← dropLit [','] (s2.drop g2.length)
  let s4 := s3.dropWhile pySpace
  let g3 := s4.takeWhile pyDigit
  guard (g3 ≠ [])
  pure ((g1 ++ '.' :: g2).asString, digitsToNat g3)

/-- `re.search(r'<BR/>(.*)', label)`: the suffix after the leftmost `<BR/>`,
or `none`. -/
def searchBR : List Char → Option (List Char)
  | [] => none
  | c :: cs =>
    match dropLit "<BR/>".data (c :: cs) with
    | some rest => some rest
    | none => searchBR cs

/-- `re.match(r'([A-Z_]+),\s*(\d+)<BR/>(.*)', label)`: tag, line, and the rest
of the line after the break marker (`.` stops at a newline). -/
def specialMatch (label : List Char) : Option (String × Nat × List Char) := do
  let g1 := label.takeWhile (fun c => ('A' ≤ c ∧ c ≤ 'Z') ∨ c = '_')
  guard (g1 ≠ [])
  let s2 ← dropLit [','] (label.drop g1.length)
  let s3 := s2.dropWhile pySpace
  let g2 := s3.takeWhile pyDigit
  guard (g2 ≠ [])
  let s4 ← dropLit "<BR/>".data (s3.drop g2.length)
  pure (g1.asString, digitsToNat g2, s4.takeWhile (fun c => c ≠ '\n'))

/-- What `parse_node_label` returns. -/
structure NodeInfo where
  operation_type : String
  line : Nat
  snippet : String
deriving DecidableEq

/-- `parse_node_label` of `dot_to_llm_index.py`: the operator/typed-label
grammar first, then the bare-tag grammar, else the `unknown` fallback with the
unescaped raw label as snippet. -/
def parse_node_label (label : String) : NodeInfo :=
  match opMatch label.data with
  | some (op, line) =>
    let snippet :=
      match searchBR label.data with
      | some rest => clean_label (rest.takeWhile (fun c => c ≠ '\n')).asString
      | none => ""
    ⟨op, line, snippet⟩
  | none =>
    match specialMatch label.data with
    | some (tag, line, snip) => ⟨tag, line, clean_label snip.asString⟩
    | none => ⟨"unknown", 0, clean_label label⟩

/-- A diamond-shaped `call_graphs` value: `A` calls `B` and `C`, each of which
calls `D`. -/
def diamondGraphs : List (String × CallGraph) :=
  [("g", [("A", ["B", "C"]), ("B", ["D"]), ("C", ["D"])])]

/-- A methods table in which the unresolved-callee sentinel `"-1"` is also the
identifier of a real record. -/
def sentinelRows : List MethodRow :=
  [⟨"1", "a.py:f", none, none⟩, ⟨"-1", "b.py:g", none, none⟩]

/-- One edge from `"1"` to the record whose id is the sentinel `"-1"`, with a
placeholder raw name. -/
def sentinelCalls : List CallRow := [⟨"1", "-1", some "<unknownFullName>"⟩]

/-- A one-record methods table. -/
def soloRows : List MethodRow := [⟨"1", "a.py:f", none, none⟩]

/-- One edge whose non-sentinel `callee_id` is absent from the table but whose
raw `callee_full_name` is a real external name. -/
def soloCalls : List CallRow := [⟨"1", "99", some "ext.py:g"⟩]

theorem mem_sortStrings {x : String} {l : List String} :
    x ∈ sortStrings l ↔ x ∈ l :=
  (List.perm_insertionSort _ _).mem_iff

theorem mem_sortDedup {x : String} {l : List String} :
    x ∈ sortDedup l ↔ x ∈ l := by
  unfold sortDedup
  rw [mem_sortStrings]
  exact List.mem_dedup

theorem methods_eq_some {rows : List MethodRow} {id : String} {m : MethodRow}
    (h : methods rows id = some m) : m ∈ rows ∧ m.method_id = id := by
  unfold methods at h
  refine ⟨List.mem_reverse.mp (List.mem_of_find?_eq_some h), ?_⟩
  have hp := List.find?_some h
  simpa using hp

theorem mem_methods_by_name_self {rows : List MethodRow} {m : MethodRow}
    (h : m ∈ rows) :
    m.method_id ∈ methods_by_name rows (extract_function_name m.full_name) := by
  unfold methods_by_name
  exact List.mem_map.mpr ⟨m, List.mem_filter.mpr ⟨h, by simp⟩, rfl⟩

/-- C1 counterexample: from the initial state, two consecutive
`_ensure_parser_loaded` calls with the input files missing start construction
twice — the claimed "construction runs at most once per process lifetime and
is never retried after a failure" is false of the code, which leaves
`_parser = None` on a constructor exception. -/
theorem claim1_counterexample :
    ((ensure_parser_loaded none
        (ensure_parser_loaded none initLoaderState).2).2).load_attempts = 2 := rfl

/-- C1 (amended): a failed construction attempt leaves the loader unloaded
rather than terminally failed — every later call with the files still missing
fails again with the same error but re-runs construction (incrementing the
attempt count); only after a successful construction is the parser cached and
construction never re-entered. -/
theorem claim1_loader_retry (files : Option (List MethodRow × List CallRow))
    (st : LoaderState) :
    (st.parser = none → files = none →
      ensure_parser_loaded files st =
        (Except.error "Missing CSV files", ⟨none, st.load_attempts + 1⟩)) ∧
    (∀ p, st.parser = some p → ensure_parser_loaded files st = (Except.ok p, st)) := by
  constructor
  · intro h1 h2
    subst h2
    unfold ensure_parser_loaded
    rw [h1]
  · intro p hp
    unfold ensure_parser_loaded
    rw [hp]

/-- C3 counterexample: `get_call_chain` with `max_depth = 0` returns the empty
sequence, not `[X]`, even for the resolvable start node `A` of the example
graph — the `depth >= max_depth` guard fires before the start node is
emitted. -/
theorem claim3_counterexample :
    get_call_chain diamondGraphs "A" 0 = [] ∧
      get_call_chain diamondGraphs "A" 0 ≠ ["A"] ∧
      allCallees diamondGraphs "A" = ["B", "C"] := by decide

/-- C3 (amended): for every graph and every start name, `max_depth = 0` yields
the empty sequence; the start node heads the result exactly when
`max_depth ≥ 1`. -/
theorem claim3_depth_zero (gs : List (String × CallGraph)) (X : String) :
    get_call_chain gs X 0 = [] ∧
      ∀ d : Nat, 0 < d → (get_call_chain gs X d).head? = some X := by
  constructor
  · rfl
  · intro d hd
    match d, hd with
    | d + 1, _ => simp [get_call_chain, build_chain]

/-- C8: every tool wrapper is total on its inputs and, whenever it reports
`success = false`, its payload is empty (`[]`/`none`) and its error message is
populated — the `try/except` of each FastMCP tool converts any internal
exception (modelled by the `Except.error` outcome of the load plus query) into
this structured failure instead of propagating it. -/
theorem claim8_tool_boundary
    (load : Except String (List MethodRow × List CallRow))
    (function query : String) :
    ((tool_get_callees load function).success = false →
      (tool_get_callees load function).payload = [] ∧
        ((tool_get_callees load function).error).isSome = true) ∧
    ((tool_get_callers load function).success = false →
      (tool_get_callers load function).payload = [] ∧
        ((tool_get_callers load function).error).isSome = true) ∧
    ((tool_search_functions load query).success = false →
      (tool_search_functions load query).payload = [] ∧
        ((tool_search_functions load query).error).isSome = true) ∧
    ((tool_get_function_details load function).success = false →
      (tool_get_function_details load function).payload = none ∧
        ((tool_get_function_details load function).error).isSome = true) ∧
    ((tool_get_call_graph_stats load).success = false →
      (tool_get_call_graph_stats load).payload = none ∧
        ((tool_get_call_graph_stats load).error).isSome = true) := by
  cases load with
  | error e =>
    simp [tool_get_callees, tool_get_callers, tool_search_functions,
      tool_get_function_details, tool_get_call_graph_stats]
  | ok d =>
    obtain ⟨rows, calls⟩ := d
    refine ⟨by simp [tool_get_callees], by simp [tool_get_callers],
      by simp [tool_search_functions], ?_, by simp [tool_get_call_graph_stats]⟩
    cases h : get_function_details rows function with
    | some fd => simp [tool_get_function_details, h]
    | none => simp [tool_get_function_details, h]

/-- C9: a label matched by neither the operator/typed-label grammar nor the
bare-tag grammar parses to operation type `unknown`, line `0`, and the
unescaped raw label, where `clean_label` substitutes the `<BR/>` break marker
by a space first and only then decodes `&lt;`, `&gt;`, `&quot;` (in that
order) — as the two closed conjuncts demonstrate, a `<` produced by entity
decoding is not re-interpreted as a break marker. -/
theorem claim9_label_fallback (label : String)
    (h1 : opMatch label.data = none) (h2 : specialMatch label.data = none) :
    parse_node_label label = ⟨"unknown", 0, clean_label label⟩ ∧
      clean_label "a&lt;BR/>b" = "a<BR/>b" ∧
      clean_label "x<BR/>y&gt;&quot;" = "x y>\"" := by
  refine ⟨?_, by decide, by decide⟩
  unfold parse_node_label
  rw [h1, h2]

/-- C9 witness: the fallback at the concrete label `hello`. -/
theorem claim9_label_fallback_witness :
    parse_node_label "hello" = ⟨"unknown", 0, clean_label "hello"⟩ :=
  (claim9_label_fallback "hello" (by decide) (by decide)).1

theorem build_chain_disjoint (gs : List (String × CallGraph)) :
    ∀ (fuel : Nat) (visited : List String) (start v : String),
      v ∈ visited → v ∉ build_chain gs fuel visited start := by
  intro fuel
  induction fuel with
  | zero => intro visited start v _; simp [build_chain]
  | succ f ih =>
    intro visited start v hv
    by_cases hs : start ∈ visited
    · simp [build_chain, hs]
    · simp only [build_chain, if_neg hs]
      intro hmem
      rcases List.mem_cons.mp hmem with h | h
      · exact hs (h ▸ hv)
      · rcases List.mem_flatMap.mp h with ⟨c, _, hvc⟩
        by_cases hcv : c ∈ start :: visited
        · rw [if_pos hcv] at hvc
          simp at hvc
        · rw [if_neg hcv] at hvc
          exact ih (start :: visited) c v (List.mem_cons_of_mem _ hv) hvc

/-- C2 counterexample: on the diamond graph (`A → B → D`, `A → C → D`,
cycle-free) the chain returned for `A` at depth 3 lists `D` twice — the
per-branch `visited.copy()` prevents revisits only along a single path, so the
claim "each function identifier appears at most once, even when reachable via
a different path" is false of the code. -/
theorem claim2_counterexample :
    get_call_chain diamondGraphs "A" 3 = ["A", "B", "D", "C", "D"] ∧
      ¬ (get_call_chain diamondGraphs "A" 3).Nodup := by decide

/-- C2 (amended): the traversal always terminates (the embedding is total, the
recursion being bounded by `max_depth`), and no identifier on the current
ancestor path is ever revisited — in particular the start node appears at most
once — but, because the visited set is copied per branch, an identifier
reachable via two different branches may appear more than once in the returned
sequence. -/
theorem claim2_no_revisit_on_path (gs : List (String × CallGraph)) (fuel : Nat)
    (visited : List String) (start : String) :
    (∀ v ∈ visited, v ∉ build_chain gs fuel visited start) ∧
      (build_chain gs fuel visited start).count start ≤ 1 := by
  refine ⟨fun v hv => build_chain_disjoint gs fuel visited start v hv, ?_⟩
  cases fuel with
  | zero => simp [build_chain]
  | succ f =>
    by_cases hs : start ∈ visited
    · simp [build_chain, hs]
    · simp only [build_chain, if_neg hs]
      rw [List.count_cons_self]
      have hz : (List.count start ((allCallees gs start).flatMap (fun callee =>
          if callee ∈ start :: visited then []
          else build_chain gs f (start :: visited) callee))) = 0 := by
        rw [List.count_eq_zero]
        intro hmem
        rcases List.mem_flatMap.mp hmem with ⟨c, _, hvc⟩
        by_cases hcv : c ∈ start :: visited
        · rw [if_pos hcv] at hvc
          simp at hvc
        · rw [if_neg hcv] at hvc
          exact build_chain_disjoint gs f (start :: visited) c start
            (List.mem_cons_self _ _) hvc
      omega

/-- C5 counterexample: the edge `("1" → "99")` has a non-sentinel target
absent from the methods table, yet `get_callees` emits its raw
`callee_full_name` — the claim that such an edge "contributes nothing to the
query result through that endpoint" is false of the code, whose `else` branch
covers unresolved non-sentinel ids too. -/
theorem claim5_counterexample :
    get_callees soloRows soloCalls "f" = ["ext.py:g"] ∧
      methods soloRows "99" = none ∧ ("99" : String) ≠ "-1" := by decide

/-- C5 (amended): for an edge whose caller is a candidate of the queried name:
a non-sentinel target id found in the methods table contributes that record's
full name; in every other case — target id equal to the sentinel `"-1"` or
absent from the table — the raw `callee_full_name` is emitted whenever it is
present, non-empty, and not the `<unknownFullName>` placeholder, and the edge
contributes nothing only when that fallback yields nothing. -/
theorem claim5_callee_emission (rows : List MethodRow) (calls : List CallRow)
    (fn : String) (call : CallRow) (hc : call ∈ calls)
    (hcand : call.caller_id ∈ methods_by_name rows fn) :
    (∀ m : MethodRow, call.callee_id ≠ "-1" →
        methods rows call.callee_id = some m →
        m.full_name ∈ get_callees rows calls fn) ∧
    (∀ s, (call.callee_id = "-1" ∨ methods rows call.callee_id = none) →
        call.callee_full_name = some s → s ≠ "" → s ≠ "<unknownFullName>" →
        s ∈ get_callees rows calls fn) ∧
    ((call.callee_id = "-1" ∨ methods rows call.callee_id = none) →
      callee_fallback call = none → callee_emit rows call = none) := by
  have hne : methods_by_name rows fn ≠ [] := List.ne_nil_of_mem hcand
  refine ⟨?_, ?_, ?_⟩
  · intro m hid hm
    simp only [get_callees, if_neg hne]
    rw [mem_sortDedup]
    refine List.mem_filterMap.mpr ⟨call, hc, ?_⟩
    rw [if_pos hcand]
    unfold callee_emit
    rw [if_pos hid, hm]
  · intro s hfb hs hs1 hs2
    simp only [get_callees, if_neg hne]
    rw [mem_sortDedup]
    refine List.mem_filterMap.mpr ⟨call, hc, ?_⟩
    rw [if_pos hcand]
    have hcf : callee_fallback call = some s := by
      simp only [callee_fallback, hs]
      rw [if_pos ⟨hs1, hs2⟩]
    unfold callee_emit
    rcases hfb with hid | hnone
    · rw [if_neg (by simp [hid])]
      exact hcf
    · by_cases hid : call.callee_id = "-1"
      · rw [if_neg (by simp [hid])]
        exact hcf
      · rw [if_pos hid, hnone]
        exact hcf
  · intro hfb hnonefb
    unfold callee_emit
    rcases hfb with hid | hnone
    · rw [if_neg (by simp [hid])]
      exact hnonefb
    · by_cases hid : call.callee_id = "-1"
      · rw [if_neg (by simp [hid])]
        exact hnonefb
      · rw [if_pos hid, hnone]
        exact hnonefb

/-- C5 witness: the amended emission rule at the concrete unresolved
non-sentinel edge of `soloCalls`. -/
theorem claim5_callee_emission_witness :
    "ext.py:g" ∈ get_callees soloRows soloCalls "f" :=
  (claim5_callee_emission soloRows soloCalls "f" ⟨"1", "99", some "ext.py:g"⟩
      (by decide) (by decide)).2.1 "ext.py:g" (Or.inr (by decide)) rfl
    (by decide) (by decide)

/-- C10: every string returned by `get_callers` is the `full_name` of a record
stored in the methods table (an edge whose `caller_id` matches no record is
silently skipped), and the conjoined concrete instance shows the asymmetry
with `get_callees`, which does emit `ext.py:g` although no record of
`soloRows` carries that full name. -/
theorem claim10_callers_resolved :
    (∀ (rows : List MethodRow) (calls : List CallRow) (fn x : String),
        x ∈ get_callers rows calls fn →
          ∃ m : MethodRow, methods rows m.method_id = some m ∧ m.full_name = x) ∧
      ("ext.py:g" ∈ get_callees soloRows soloCalls "f" ∧
        ∀ m ∈ soloRows, m.full_name ≠ "ext.py:g") := by
  constructor
  · intro rows calls fn x hx
    simp only [get_callers] at hx
    by_cases hempty : methods_by_name rows fn = []
    · rw [if_pos hempty] at hx
      simp at hx
    · rw [if_neg hempty, mem_sortDedup] at hx
      rcases List.mem_filterMap.mp hx with ⟨call, _, hcall⟩
      by_cases hcid : call.callee_id ∈ methods_by_name rows fn
      · rw [if_pos hcid] at hcall
        rcases Option.map_eq_some'.mp hcall with ⟨m, hm, hname⟩
        refine ⟨m, ?_, hname⟩
        rw [(methods_eq_some hm).2]
        exact hm
      · rw [if_neg hcid] at hcall
        cases hcall
  · exact ⟨by decide, by decide⟩

/-- C4 counterexample: in `sentinelRows` the sentinel string `"-1"` is also the
id of a real record, so the edge `("1" → "-1")` has both endpoints resolving to
records of the methods table, yet `get_callees` of `A`'s short name omits `B`'s
full name: the `callee_id != "-1"` test routes the edge to the raw-name
fallback, which the placeholder suppresses.  (The `get_callers` direction still
holds even here.) -/
theorem claim4_counterexample :
    methods sentinelRows "1" = some ⟨"1", "a.py:f", none, none⟩ ∧
      methods sentinelRows "-1" = some ⟨"-1", "b.py:g", none, none⟩ ∧
      extract_function_name "a.py:f" = "f" ∧
      get_callees sentinelRows sentinelCalls "f" = [] ∧
      "b.py:g" ∉ get_callees sentinelRows sentinelCalls "f" ∧
      get_callers sentinelRows sentinelCalls "g" = ["a.py:f"] := by decide

/-- C4 (amended): for every call edge `(A → B)` whose endpoints both resolve to
records of the methods table, `A`'s full name is in
`get_callers(shortname(B))`; and provided additionally that the callee id is
not the unresolved-callee sentinel `"-1"`, `B`'s full name is in
`get_callees(shortname(A))`. -/
theorem claim4_inverse_consistency (rows : List MethodRow) (calls : List CallRow)
    (e : CallRow) (A B : MethodRow) (he : e ∈ calls)
    (hA : methods rows e.caller_id = some A)
    (hB : methods rows e.callee_id = some B) :
    (e.callee_id ≠ "-1" →
      B.full_name ∈ get_callees rows calls (extract_function_name A.full_name)) ∧
    A.full_name ∈ get_callers rows calls (extract_function_name B.full_name) := by
  obtain ⟨hAmem, hAid⟩ := methods_eq_some hA
  obtain ⟨hBmem, hBid⟩ := methods_eq_some hB
  constructor
  · intro hne
    have hcand :
        e.caller_id ∈ methods_by_name rows (extract_function_name A.full_name) := by
      rw [← hAid]
      exact mem_methods_by_name_self hAmem
    have hne0 :
        methods_by_name rows (extract_function_name A.full_name) ≠ [] :=
      List.ne_nil_of_mem hcand
    simp only [get_callees, if_neg hne0]
    rw [mem_sortDedup]
    refine List.mem_filterMap.mpr ⟨e, he, ?_⟩
    rw [if_pos hcand]
    unfold callee_emit
    rw [if_pos hne, hB]
  · have hcand :
        e.callee_id ∈ methods_by_name rows (extract_function_name B.full_name) := by
      rw [← hBid]
      exact mem_methods_by_name_self hBmem
    have hne0 :
        methods_by_name rows (extract_function_name B.full_name) ≠ [] :=
      List.ne_nil_of_mem hcand
    simp only [get_callers, if_neg hne0]
    rw [mem_sortDedup]
    refine List.mem_filterMap.mpr ⟨e, he, ?_⟩
    rw [if_pos hcand, hA]
    rfl

/-- C4 witness: the callers direction at the concrete sentinel edge. -/
theorem claim4_inverse_consistency_witness :
    "a.py:f" ∈ get_callers sentinelRows sentinelCalls
      (extract_function_name "b.py:g") :=
  (claim4_inverse_consistency sentinelRows sentinelCalls
      ⟨"1", "-1", some "<unknownFullName>"⟩ ⟨"1", "a.py:f", none, none⟩
      ⟨"-1", "b.py:g", none, none⟩ (by decide) (by decide) (by decide)).2

theorem str_contains_nil (l : List Char) : str_contains [] l = true := by
  cases l with
  | nil => rfl
  | cons c cs => rfl

/-- C7: `search_functions` returns a list sorted in the string order Python's
`sorted` uses, without duplicates, whose members are exactly the short names of
the index whose lowercase form contains the lowercased query as a substring;
with the empty query it returns every short name. -/
theorem claim7_search_characterization (rows : List MethodRow) (q : String) :
    (search_functions rows q).Sorted (fun a b : String => strLe a b = true) ∧
    (search_functions rows q).Nodup ∧
    (∀ n, n ∈ search_functions rows q ↔
        n ∈ methods_by_name_keys rows ∧
          str_contains (str_lower q).data (str_lower n).data = true) ∧
    (∀ n, n ∈ search_functions rows "" ↔ n ∈ methods_by_name_keys rows) := by
  have hchar : ∀ (q' : String) (n : String),
      n ∈ search_functions rows q' ↔
        n ∈ methods_by_name_keys rows ∧
          str_contains (str_lower q').data (str_lower n).data = true := by
    intro q' n
    simp only [search_functions]
    rw [mem_sortStrings, List.mem_filter]
  refine ⟨?_, ?_, hchar q, ?_⟩
  · simp only [search_functions, sortStrings]
    exact List.sorted_insertionSort _ _
  · simp only [search_functions, sortStrings]
    exact ((List.perm_insertionSort _ _).symm).nodup
      (List.Nodup.filter _ (List.nodup_dedup _))
  · intro n
    rw [hchar "" n]
    have h0 : (str_lower "").data = [] := rfl
    rw [h0]
    simp [str_contains_nil]

theorem count_methods_by_name :
    ∀ (rows : List MethodRow),
      rows.Pairwise (fun a b => a.method_id ≠ b.method_id) →
      ∀ r ∈ rows, ∀ n,
        (methods_by_name rows n).count r.method_id =
          if extract_function_name r.full_name = n then 1 else 0 := by
  intro rows
  induction rows with
  | nil => intro _ r hr; cases hr
  | cons a l ih =>
    intro hu r hr n
    rw [List.pairwise_cons] at hu
    obtain ⟨hu1, hu2⟩ := hu
    simp only [methods_by_name, List.filter_cons, beq_iff_eq]
    rcases List.mem_cons.mp hr with rfl | hr'
    · have hnot : r.method_id ∉
          (l.filter (fun x => extract_function_name x.full_name == n)).map
            (fun x => x.method_id) := by
        intro hmem
        rcases List.mem_map.mp hmem with ⟨b, hb, hbid⟩
        exact hu1 b (List.mem_of_mem_filter hb) hbid.symm
      by_cases hp : extract_function_name r.full_name = n
      · rw [if_pos hp, if_pos hp, List.map_cons, List.count_cons_self,
          List.count_eq_zero.mpr hnot]
      · rw [if_neg hp, if_neg hp, List.count_eq_zero.mpr hnot]
    · have hne : r.method_id ≠ a.method_id := fun h => hu1 r hr' h.symm
      by_cases hp : extract_function_name a.full_name = n
      · rw [if_pos hp, List.map_cons, List.count_cons_of_ne hne]
        exact ih hu2 r hr' n
      · rw [if_neg hp]
        exact ih hu2 r hr' n

theorem sum_map_ite_count (n0 : String) :
    ∀ l : List String,
      (l.map (fun n => if n0 = n then 1 else 0)).sum = l.count n0 := by
  intro l
  induction l with
  | nil => rfl
  | cons a t ih =>
    by_cases h : n0 = a
    · simp only [List.map_cons, List.sum_cons, if_pos h, List.count_cons, ih]
      have hb : (a == n0) = true := by simp [h.symm]
      rw [hb]
      simp [Nat.add_comm]
    · simp only [List.map_cons, List.sum_cons, if_neg h, List.count_cons, ih]
      have hb : (a == n0) = false := by
        simp only [beq_eq_false_iff_ne]
        exact Ne.symm h
      rw [hb]
      simp

/-- C6: when the loaded rows carry pairwise distinct `method_id`s, the
short-name index has exactly one entry per distinct short name (its key list is
duplicate-free and holds precisely the short names extracted from the rows),
and the concatenation of its candidate lists contains each identifier of the
methods table exactly once and nothing else — the index partitions the table's
identifier set. -/
theorem claim6_shortname_partition (rows : List MethodRow)
    (hu : rows.Pairwise (fun a b => a.method_id ≠ b.method_id)) :
    (methods_by_name_keys rows).Nodup ∧
    (∀ n, n ∈ methods_by_name_keys rows ↔
        ∃ r ∈ rows, extract_function_name r.full_name = n) ∧
    (∀ r ∈ rows,
        ((methods_by_name_keys rows).flatMap (methods_by_name rows)).count
          r.method_id = 1) ∧
    (∀ id, id ∈ (methods_by_name_keys rows).flatMap (methods_by_name rows) →
        ∃ r ∈ rows, r.method_id = id) := by
  refine ⟨List.nodup_dedup _, ?_, ?_, ?_⟩
  · intro n
    simp only [methods_by_name_keys, List.mem_dedup, List.mem_map]
  · intro r hr
    rw [List.count_flatMap]
    have hmap : ((methods_by_name_keys rows).map
        (List.count r.method_id ∘ methods_by_name rows)) =
        ((methods_by_name_keys rows).map
          (fun n => if extract_function_name r.full_name = n then 1 else 0)) :=
      List.map_congr_left (fun n _ => count_methods_by_name rows hu r hr n)
    rw [hmap, sum_map_ite_count]
    refine List.count_eq_one_of_mem (List.nodup_dedup _) ?_
    simp only [methods_by_name_keys, List.mem_dedup, List.mem_map]
    exact ⟨r, hr, rfl⟩
  · intro id hid
    rcases List.mem_flatMap.mp hid with ⟨n, _, hidn⟩
    simp only [methods_by_name, List.mem_map] at hidn
    rcases hidn with ⟨r, hrf, hrid⟩
    exact ⟨r, List.mem_of_mem_filter hrf, hrid⟩

/-- C6 witness: the partition property at the concrete two-row table. -/
theorem claim6_shortname_partition_witness :
    ((methods_by_name_keys sentinelRows).flatMap
        (methods_by_name sentinelRows)).count "1" = 1 :=
  (claim6_shortname_partition sentinelRows (by decide)).2.2.1
    ⟨"1", "a.py:f", none, none⟩ (by decide)
